import Mathlib

/-!
Verification of the fredy execution orchestrator and config-sync engine.

Shallow embedding of:
- `src/lib/services/configSync/configJobSync.js` (placeholder substitution,
  notification-adapter normalization, job sync / reconciliation),
- `src/unnamed/part_000` (bounded-concurrency runner, execution gate,
  task planning).

Machine model notes:
- JavaScript objects are embedded as structures with `Option` fields
  (`none` = property absent); JS truthiness of a string-valued property is
  `some s` with `s ≠ ""`; an object-valued property is truthy iff present.
- The persistent job store (`jobStorage.js`) is not part of the sources;
  it is modelled from the spec (section 6) as an id-keyed list of job rows.
-/

namespace Fredy

/-! ## String helpers (JS `String.prototype.replaceAll` / `includes`) -/

/-- `charsStartWith pat l` : `l` starts with `pat` (character lists). -/
def charsStartWith : List Char → List Char → Bool
  | [], _ => true
  | _ :: _, [] => false
  | p :: ps, c :: cs => p == c && charsStartWith ps cs

/-- `containsChars l pat` : `pat` occurs somewhere inside `l`. -/
def containsChars : List Char → List Char → Bool
  | [], pat => pat.isEmpty
  | c :: rest, pat => charsStartWith pat (c :: rest) || containsChars rest pat

/-- Fuel-driven left-to-right non-overlapping replacement of `pat` by `rep`,
as JS `replaceAll` does.  Fuel is instantiated with the input length, which
is always sufficient. -/
def replaceAllGo (pat rep : List Char) : Nat → List Char → List Char
  | _, [] => []
  | 0, l => l
  | Nat.succ fuel, c :: rest =>
    if !pat.isEmpty && charsStartWith pat (c :: rest) then
      rep ++ replaceAllGo pat rep fuel ((c :: rest).drop pat.length)
    else
      c :: replaceAllGo pat rep fuel rest

/-- JS `s.replaceAll(pat, rep)` on Lean strings. -/
def replaceAllStr (s pat rep : String) : String :=
  ⟨replaceAllGo pat.data rep.data s.data.length s.data⟩

/-- JS `s.includes(pat)`. -/
def strIncludes (s pat : String) : Bool :=
  containsChars s.data pat.data

/-! ## Environment placeholder substitution
(`replaceEnvPlaceholdersSimple`, configJobSync.js lines 24-44) -/

/-- The two environment variables consulted by the sync service.
`none` models an unset variable. -/
structure EnvVars where
  botToken : Option String
  rawFeedChannelId : Option String
deriving DecidableEq, Repr

/-- The per-string substitution of configJobSync.js lines 26-33: each
placeholder is replaced only when the corresponding environment variable is
set (truthy) and the placeholder occurs in the string.  Both `if` bodies
read the captured `const value` (the *original* string) and both assign to
`obj[key]`, so when the second `if` fires its `value.replaceAll(...)` result
overwrites whatever the first assigned: a string containing both
placeholders keeps `${BOT_TOKEN}` unresolved. -/
def substEnvPlaceholders (env : EnvVars) (s : String) : String :=
  let afterBot :=
    match env.botToken with
    | some t => if t != "" && strIncludes s "${BOT_TOKEN}" then replaceAllStr s "${BOT_TOKEN}" t else s
    | none => s
  match env.rawFeedChannelId with
  | some t =>
    if t != "" && strIncludes s "${RAW_FEED_CHANNEL_ID}" then
      replaceAllStr s "${RAW_FEED_CHANNEL_ID}" t
    else afterBot
  | none => afterBot

/-- JSON-like values of the parsed configuration file.  `atom` stands for
numbers, booleans and `null`, none of which the substitution touches. -/
inductive JValue where
  | str (s : String)
  | atom
  | obj (entries : List (String × JValue))
  | arr (items : List JValue)

mutual

/-- `replaceEnvPlaceholdersSimple(obj)` (configJobSync.js lines 24-44) applied
to an object or array: `for (const key in obj)` visits every property (for an
array: every index) and processes its value. -/
def replSimple (env : EnvVars) : JValue → JValue
  | .obj es => .obj (replSimpleEntries env es)
  | .arr items => .arr (replSimpleVals env items)
  | v => v

/-- Property list traversal of the `for (const key in obj)` loop. -/
def replSimpleEntries (env : EnvVars) : List (String × JValue) → List (String × JValue)
  | [] => []
  | (k, v) :: rest => (k, replSimpleValue env v) :: replSimpleEntries env rest

/-- Index traversal when the function recurses into an array directly. -/
def replSimpleVals (env : EnvVars) : List JValue → List JValue
  | [] => []
  | v :: rest => replSimpleValue env v :: replSimpleVals env rest

/-- Treatment of one property value (configJobSync.js lines 26-42): strings
are substituted; non-array objects are recursed into; for an array value,
`value.forEach` recurses only into items that are objects (JS arrays are
`typeof 'object'` as well), leaving string items untouched. -/
def replSimpleValue (env : EnvVars) : JValue → JValue
  | .str s => .str (substEnvPlaceholders env s)
  | .obj es => .obj (replSimpleEntries env es)
  | .arr items => .arr (replSimpleItems env items)
  | .atom => .atom

/-- The `value.forEach((item) => ...)` loop of lines 37-41. -/
def replSimpleItems (env : EnvVars) : List JValue → List JValue
  | [] => []
  | item :: rest => replSimpleItem env item :: replSimpleItems env rest

/-- One `forEach` item: recursed into iff it is an object (or array); a
string item is returned unchanged. -/
def replSimpleItem (env : EnvVars) : JValue → JValue
  | .obj es => .obj (replSimpleEntries env es)
  | .arr items => .arr (replSimpleVals env items)
  | v => v

end

/-! ## Notification-adapter normalization
(`convertNotificationAdapter`, configJobSync.js lines 68-107) -/

/-- A notification-adapter object as it may appear in config.json or in the
database.  Every property is optional; `none` models an absent property.
Field mappings (`fields` / `args`) are association lists. -/
structure Adapter where
  type : Option String := none
  botToken : Option String := none
  chatId : Option String := none
  id : Option String := none
  fields : Option (List (String × String)) := none
  args : Option (List (String × String)) := none
deriving DecidableEq, Repr

/-- JS truthiness of a possibly-absent string property: present and
non-empty. -/
def truthyStr : Option String → Bool
  | none => false
  | some s => s != ""

/-- `convertNotificationAdapter(adapter)` (configJobSync.js lines 68-107).
The input may be `null` (`none`); a `null` result means the adapter is
invalid and gets dropped by the caller's `.filter(Boolean)`.  An
object-valued property (`fields` / `args`) is truthy whenever present. -/
def convertNotificationAdapter : Option Adapter → Option Adapter
  | none => none
  | some a =>
    if truthyStr a.type && truthyStr a.botToken && truthyStr a.chatId then
      some { id := a.type,
             fields := some [("token", a.botToken.getD ""), ("chatId", a.chatId.getD "")] }
    else if !truthyStr a.id then
      none
    else if a.fields.isSome then
      some a
    else if a.args.isSome then
      some { id := a.id, fields := a.args }
    else
      some { id := a.id, fields := some [] }

/-! ## Job data model and the job store

`jobStorage.js` is not among the sources. Modelled from the spec:
"Persistent job store: getJobs() → sequence of Job, getJob(id) → Job|absent,
upsertJob(jobData) → void, removeJob(id) → void" (spec section 6), with Job
rows keyed by their unique, stable identifier (spec section 3).  `upsertJob`
updates the row with the given id or inserts a new row; `removeJob` deletes
the rows with the given id. -/

/-- A provider binding inside a job: provider-type identifier plus
provider-specific configuration (opaque here, it never influences the
orchestrator's control flow). -/
structure Binding where
  id : String
deriving DecidableEq, Repr

/-- A job row of the persistent job store (spec section 3; field names as in
the `upsertJob` payload of configJobSync.js lines 143-152). -/
structure DbJob where
  id : String
  name : String
  enabled : Bool
  provider : List Binding
  notificationAdapter : List Adapter
  userId : String
  shareWithUsers : List String
  blacklist : List String
deriving DecidableEq, Repr

/-- Modelled from the spec: `upsertJob` of the job store — update the row
keyed by `j.id`, or insert it. -/
def upsertJob : List DbJob → DbJob → List DbJob
  | [], j => [j]
  | x :: xs, j => if x.id = j.id then j :: xs else x :: upsertJob xs j

/-- Modelled from the spec: `removeJob` of the job store — delete the rows
keyed by `i`. -/
def removeJob (store : List DbJob) (i : String) : List DbJob :=
  store.filter (fun x => x.id ≠ i)

/-! ## Declarative config and the sync engine
(`syncJobToDatabase` / `syncConfigJobsToDatabase`, configJobSync.js
lines 114-230) -/

/-- The synthetic owner identity of file-synced jobs
(configJobSync.js line 14). -/
def CONFIG_SYNC_USER_ID : String := "config_sync"

/-- One entry of the `jobs` list of config.json, as read by the sync
service.  Every property is optional (`none` = absent). -/
structure ConfigJob where
  id : Option String := none
  name : Option String := none
  enabled : Option Bool := none
  provider : Option (List Binding) := none
  notificationAdapter : Option (List Adapter) := none
  user_ids : Option (List String) := none
  blacklist : Option (List String) := none
deriving DecidableEq, Repr

/-- The parsed configuration, after `replaceEnvPlaceholdersSimple` has been
applied (that step is deterministic, so repeated syncs of an unchanged file
see the same value). -/
structure Config where
  jobs : Option (List ConfigJob) := none
  adapters : Option (List Adapter) := none
deriving DecidableEq, Repr

/-- The job's own converted adapter list (configJobSync.js lines 122-124):
`Array.isArray(...) ? ....map(convertNotificationAdapter).filter(Boolean) : []`. -/
def jobOwnAdapters (jc : ConfigJob) : List Adapter :=
  match jc.notificationAdapter with
  | some l => (l.map (fun a => convertNotificationAdapter (some a))).filterMap id
  | none => []

/-- The effective adapter list after the global fall-back of lines 127-134:
when the job converted none and the config has a (truthy) `adapters`
property, the converted globals are appended to the (empty) list. -/
def jobAdapters (jc : ConfigJob) (cfg : Config) : List Adapter :=
  if (jobOwnAdapters jc).isEmpty then
    match cfg.adapters with
    | some ga =>
      jobOwnAdapters jc ++ (ga.map (fun a => convertNotificationAdapter (some a))).filterMap id
    | none => jobOwnAdapters jc
  else jobOwnAdapters jc

/-- `syncJobToDatabase(jobConfig, currentConfig)` (configJobSync.js lines
114-159): `some row` is the job row passed to `upsertJob` (function returned
`true`), `none` means the job was skipped (returned `false`).  The storage
call itself is modelled as infallible, so the surrounding `try/catch` has no
failing path here. -/
def syncJobToDatabase (jc : ConfigJob) (cfg : Config) : Option DbJob :=
  if !truthyStr jc.id then
    none
  else if (jobAdapters jc cfg).isEmpty then
    none
  else
    some { id := jc.id.getD ""
           name := if truthyStr jc.name then jc.name.getD "" else jc.id.getD ""
           enabled := jc.enabled != some false
           provider := jc.provider.getD []
           notificationAdapter := jobAdapters jc cfg
           userId := CONFIG_SYNC_USER_ID
           shareWithUsers := jc.user_ids.getD []
           blacklist := jc.blacklist.getD [] }

/-- `syncConfigJobsToDatabase()` (configJobSync.js lines 164-230), as a
function of the job store and the freshly read (and placeholder-substituted)
configuration.  Returns the store after the sync together with the list of
removed job ids, in removal order.  The `syncInProgress` single-flight flag
only guards re-entrancy and is irrelevant for sequential invocations. -/
def syncConfigJobsToDatabase (store : List DbJob) (cfg : Config) :
    List DbJob × List String :=
  let configJobs := cfg.jobs.getD []
  if configJobs.isEmpty then
    (store, [])
  else
    let existingJobs := store.filter (fun j => j.userId = CONFIG_SYNC_USER_ID)
    let configJobIds : List (Option String) := configJobs.map (fun jc => jc.id)
    let store1 := configJobs.foldl
      (fun st jc =>
        match syncJobToDatabase jc cfg with
        | some j => upsertJob st j
        | none => st) store
    let jobsToRemove := existingJobs.filter (fun j => !configJobIds.contains (some j.id))
    let store2 := jobsToRemove.foldl (fun st j => removeJob st j.id) store1
    (store2, jobsToRemove.map (fun j => j.id))

/-! ## Task planning (part_000 lines 224-252) -/

/-- A loaded provider module in the registry.  Only the id is relevant to
planning; the module's `init` behaviour is modelled separately as a function
parameter of task execution (see `runTask`). -/
structure Provider where
  id : String
deriving DecidableEq, Repr

/-- `providerMap.get(id)` where `providerMap = new Map(list)` (part_000
lines 149-153): with duplicate keys, the last entry wins. -/
def providerMapGet (pm : List Provider) (i : String) : Option Provider :=
  pm.foldl (fun acc p => if p.id = i then some p else acc) none

/-- One task pushed by the planning loop (part_000 lines 237-250): the data
captured by the task closure. -/
structure Task where
  providerId : String
  jobId : String
  binding : Binding
  blacklist : List String
deriving DecidableEq, Repr

/-- The planning part of `execute` (part_000 lines 225-252): filter jobs to
the enabled ones with a non-empty provider list, then for each binding in
input order resolve the provider in the registry; an unresolvable binding is
skipped (warning logged), a resolvable one pushes a task.  Note that the
pushed closure has not run yet: `matchedProvider.init` is *inside* it. -/
def planTasks (jobs : List DbJob) (pm : List Provider) : List Task :=
  (jobs.filter (fun job => job.enabled && !job.provider.isEmpty)).foldl
    (fun acc job =>
      job.provider.foldl
        (fun acc prov =>
          match providerMapGet pm prov.id with
          | none => acc
          | some p => acc ++ [⟨p.id, job.id, prov, job.blacklist⟩]) acc) []

/-- Outcome of running one task closure: either the pipeline ran through, or
a throw (from `init` or from the pipeline) was caught by the closure's own
`try/catch` and logged.  There is no uncaught outcome: the closure never
propagates an exception (part_000 lines 237-250). -/
inductive TaskOutcome where
  | ok
  | caughtError
deriving DecidableEq, Repr

/-- Execution of one planned task closure (part_000 lines 237-250).
`initThrows p` models `matchedProvider.init` throwing for provider `p`;
`pipelineFails p j` models the pipeline execution throwing.  Both throws are
caught by the closure's `catch` and logged. -/
def runTask (initThrows : String → Bool) (pipelineFails : String → String → Bool)
    (t : Task) : TaskOutcome :=
  if initThrows t.providerId then .caughtError
  else if pipelineFails t.providerId t.jobId then .caughtError
  else .ok

/-! ## Bounded-concurrency runner (`runWithConcurrency`, part_000 lines 41-65)

The runner's cooperative interleaving is modelled as a small-step transition
system.  A task is a `Bool` recording whether it will fulfil (`true`) or
reject (`false`); the runner's control flow never depends on it.  States
track the tasks not yet submitted, the submitted-but-unsettled ones, and the
settled ones.  The submission loop starts tasks in input order and — matching
the `await waitForNext()` back-pressure — is blocked exactly while the
in-flight set is at capacity; a settle step (any in-flight promise settling,
in any order, with either outcome) frees a slot.  After the last submission
the runner drains via `Promise.allSettled`. -/

structure RunnerState where
  pending : List Bool
  running : List Bool
  settled : List Bool
  draining : Bool
deriving DecidableEq, Repr

/-- Initial state of `runWithConcurrency(tasks, limit)`. -/
def initRunner (tasks : List Bool) : RunnerState :=
  ⟨tasks, [], [], false⟩

/-- The runner has returned: the submission loop ended and
`Promise.allSettled(executing)` resolved. -/
def RunnerState.isDone (s : RunnerState) : Bool :=
  s.draining && s.running.isEmpty

/-- Termination measure for the runner: every step strictly decreases it. -/
def runnerMeasure (s : RunnerState) : Nat :=
  2 * s.pending.length + s.running.length + (if s.draining then 0 else 1)

/-- One cooperative step of `runWithConcurrency` with limit
`L = Math.max(limit || 1, 1)`. -/
inductive RunnerStep (L : Nat) : RunnerState → RunnerState → Prop
  | submit (b : Bool) (rest running settled : List Bool)
      (hcap : running.length < L) :
      RunnerStep L ⟨b :: rest, running, settled, false⟩
        ⟨rest, b :: running, settled, false⟩
  | settle (b : Bool) (pending l₁ l₂ settled : List Bool) (d : Bool) :
      RunnerStep L ⟨pending, l₁ ++ b :: l₂, settled, d⟩
        ⟨pending, l₁ ++ l₂, b :: settled, d⟩
  | finishSubmitting (running settled : List Bool) :
      RunnerStep L ⟨[], running, settled, false⟩ ⟨[], running, settled, true⟩

/-- Reachability of runner states from a start state. -/
inductive RunnerReach (L : Nat) (s₀ : RunnerState) : RunnerState → Prop
  | refl : RunnerReach L s₀ s₀
  | step {s s' : RunnerState} :
      RunnerReach L s₀ s → RunnerStep L s s' → RunnerReach L s₀ s'

/-! ## Execution gate (`execute`, part_000 lines 205-264) -/

/-- Everything one cycle's body observes: the two policy gates and the
planned task list, where `.error` models `getJobs()`/planning throwing (a
rejection of `execute()`, caught by `triggerExecution`). -/
structure CycleInput where
  demoMode : Bool
  duringWorkingHoursOrNotSet : Bool
  planned : Except String (List Task)

/-- How one gate call ends. -/
inductive GateResult where
  | skippedInFlight
  | skippedDemo
  | skippedOutsideWorkingHours
  | noTasks
  | ranTasks (n : Nat)
  | erroredCaught
deriving DecidableEq, Repr

/-- The body of `execute` between setting and clearing `executionInFlight`
(part_000 lines 212-260). -/
def executeCycleBody (c : CycleInput) : GateResult :=
  if c.demoMode then .skippedDemo
  else if !c.duringWorkingHoursOrNotSet then .skippedOutsideWorkingHours
  else
    match c.planned with
    | .error _ => .erroredCaught
    | .ok tasks => if tasks.isEmpty then .noTasks else .ranTasks tasks.length

/-- One call of `execute` (part_000 lines 206-264) as a function of the
`executionInFlight` flag at call time.  Returns the flag after the call
completes together with the outcome.  The `finally` block guarantees the
flag is `false` after a non-skipped call, even when the body threw. -/
def executeGate (inFlight : Bool) (c : CycleInput) : Bool × GateResult :=
  if inFlight then (inFlight, .skippedInFlight)
  else (false, executeCycleBody c)

/-! ## Concrete sample values used by counterexamples and witnesses -/

/-- The canonical DB-format telegram adapter of the spec's examples. -/
def tgAdapterDb : Adapter :=
  { id := some "telegram", fields := some [("token", "T"), ("chatId", "C")] }

/-- The legacy global-adapter shape `{type, botToken, chatId}`. -/
def tgGlobalShape : Adapter :=
  { type := some "telegram", botToken := some "T", chatId := some "C" }

/-- The legacy config shape `{id, args}`. -/
def tgArgsShape : Adapter :=
  { id := some "telegram", args := some [("token", "T"), ("chatId", "C")] }

/-- A store job "a" owned by the synthetic config-sync user. -/
def jobA : DbJob :=
  ⟨"a", "a", true, [⟨"p1"⟩], [tgAdapterDb], CONFIG_SYNC_USER_ID, [], []⟩

/-- A configuration whose `jobs` list is present but empty (job "a" was
removed from the file). -/
def cfgNoJobs : Config := { jobs := some [] }

/-- An enabled job with one binding to provider "p1". -/
def jobJ : DbJob :=
  ⟨"j1", "j1", true, [⟨"p1"⟩], [tgAdapterDb], CONFIG_SYNC_USER_ID, [], []⟩

/-- The registry entry for provider "p1". -/
def provP : Provider := ⟨"p1"⟩

/-- The single task planned for `jobJ` under registry `[provP]`. -/
def taskJ : Task := ⟨"p1", "j1", ⟨"p1"⟩, []⟩

/-! ## Task-planning lemmas -/

/-- The inner binding loop of the planner accumulates, in order, one task
per resolvable binding. -/
lemma planTasks_inner (pm : List Provider) (job : DbJob) (provs : List Binding)
    (acc : List Task) :
    provs.foldl
      (fun acc prov =>
        match providerMapGet pm prov.id with
        | none => acc
        | some p => acc ++ [⟨p.id, job.id, prov, job.blacklist⟩]) acc
    = acc ++ provs.filterMap
        (fun prov => (providerMapGet pm prov.id).map
          (fun p => ⟨p.id, job.id, prov, job.blacklist⟩)) := by
  induction provs generalizing acc with
  | nil => simp
  | cons prov rest ih =>
    cases h : providerMapGet pm prov.id <;>
      simp [List.foldl_cons, List.filterMap_cons, h, ih]

/-- The outer job loop of the planner concatenates the per-job task lists in
job order. -/
lemma planTasks_outer (pm : List Provider) (l : List DbJob) (acc : List Task) :
    l.foldl
      (fun acc job =>
        job.provider.foldl
          (fun acc prov =>
            match providerMapGet pm prov.id with
            | none => acc
            | some p => acc ++ [⟨p.id, job.id, prov, job.blacklist⟩]) acc) acc
    = acc ++ l.flatMap
        (fun job => job.provider.filterMap
          (fun prov => (providerMapGet pm prov.id).map
            (fun p => ⟨p.id, job.id, prov, job.blacklist⟩))) := by
  induction l generalizing acc with
  | nil => simp
  | cons job rest ih =>
    rw [List.foldl_cons, planTasks_inner, ih]
    simp [List.append_assoc]

/-- Closed form of the planning loop: enabled jobs with bindings, in job
order, each contributing its resolvable bindings in binding order. -/
lemma planTasks_spec (jobs : List DbJob) (pm : List Provider) :
    planTasks jobs pm
    = (jobs.filter (fun job => job.enabled && !job.provider.isEmpty)).flatMap
        (fun job => job.provider.filterMap
          (fun prov => (providerMapGet pm prov.id).map
            (fun p => ⟨p.id, job.id, prov, job.blacklist⟩))) := by
  unfold planTasks
  rw [planTasks_outer]
  simp

/-- C7: Task planning is a deterministic function of (jobs, registry): it
considers exactly the enabled jobs with a non-empty binding list, emits
tasks in job-then-binding input order, and drops a binding whose provider id
is not in the registry while the job's other bindings still produce tasks —
all captured by this closed characterization of the planning loop. -/
theorem planTasks_deterministic_characterization (jobs : List DbJob) (pm : List Provider) :
    planTasks jobs pm
    = (jobs.filter (fun job => job.enabled && !job.provider.isEmpty)).flatMap
        (fun job => job.provider.filterMap
          (fun prov => (providerMapGet pm prov.id).map
            (fun p => ⟨p.id, job.id, prov, job.blacklist⟩))) :=
  planTasks_spec jobs pm

/-- C4 counterexample: with a provider whose `init` throws, planning still
produces the binding's task (the claim says it would not be produced), and
running that task yields a *caught task-execution failure*, not a planning
skip: `matchedProvider.init` is called inside the pushed closure
(part_000 lines 237-250), not during planning. -/
theorem planTasks_init_throw_counterexample :
    planTasks [jobJ] [provP] = [taskJ] ∧
    planTasks [jobJ] [provP] ≠ [] ∧
    runTask (fun _ => true) (fun _ _ => false) taskJ = TaskOutcome.caughtError := by
  refine ⟨by decide, by decide, by decide⟩

/-- C4 amended: the provider's initialization runs inside the produced task
at execution time; planning produces the task for every resolvable binding
regardless of init behaviour, and an init throw is caught by the task's own
handler and recorded as a task-execution failure (never propagated). -/
theorem init_throw_caught_as_task_failure (jobs : List DbJob) (pm : List Provider)
    (initThrows : String → Bool) (pipelineFails : String → String → Bool) (t : Task)
    (ht : t ∈ planTasks jobs pm) (hthrow : initThrows t.providerId = true) :
    runTask initThrows pipelineFails t = TaskOutcome.caughtError := by
  simp [runTask, hthrow]

/-- Witness for `init_throw_caught_as_task_failure` at a concrete job,
registry and throwing init. -/
theorem init_throw_caught_as_task_failure_witness :
    taskJ ∈ planTasks [jobJ] [provP] ∧
    (fun _ : String => true) taskJ.providerId = true ∧
    runTask (fun _ => true) (fun _ _ => false) taskJ = TaskOutcome.caughtError :=
  ⟨by decide, rfl,
    init_throw_caught_as_task_failure [jobJ] [provP] (fun _ => true) (fun _ _ => false)
      taskJ (by decide) rfl⟩

/-! ## Execution-gate theorem (C3) -/

/-- C3: the execution gate is single-flight: any call arriving while a cycle
is in flight returns immediately as a no-op with the state unchanged (and a
whole burst of such calls yields only no-ops), while a call that does run
always leaves the flag back at `false` — even when the cycle body throws
(`.planned = .error`), thanks to the `finally` block. -/
theorem execution_gate_single_flight :
    (∀ c : CycleInput, executeGate true c = (true, GateResult.skippedInFlight)) ∧
    (∀ cs : List CycleInput,
      cs.map (fun c => executeGate true c)
        = cs.map (fun _ => ((true : Bool), GateResult.skippedInFlight))) ∧
    (∀ c : CycleInput, (executeGate false c).1 = false) := by
  refine ⟨fun c => rfl, fun cs => ?_, fun c => rfl⟩
  simp [executeGate]

/-! ## Notification-adapter theorems (C8, C10) -/

/-- C8: the four normalization cases of the spec: the global
`{type, botToken, chatId}` shape and the config `{id, args}` shape both map
to the DB shape `{id, fields}`; an input already in DB shape is returned
unchanged; the empty object is rejected (`null`, dropped). -/
theorem convertNotificationAdapter_normalization_cases :
    convertNotificationAdapter (some tgGlobalShape) = some tgAdapterDb ∧
    convertNotificationAdapter (some tgArgsShape) = some tgAdapterDb ∧
    convertNotificationAdapter (some tgAdapterDb) = some tgAdapterDb ∧
    convertNotificationAdapter (some {}) = none := by
  refine ⟨by decide, by decide, by decide, by decide⟩

/-- C10: an adapter with a truthy `id` but neither `fields` nor `args` (and
not in the global shape) normalizes to `{id, fields:{}}` instead of being
rejected, so a job listing only such an adapter keeps a non-empty adapter
list and the fall-back to the globally configured adapters is not taken:
the synced row is independent of `cfg.adapters`. -/
theorem convert_adapter_id_only_prevents_fallback (a : Adapter) (jc : ConfigJob)
    (cfg : Config)
    (hid : truthyStr a.id = true)
    (hnf : a.fields = none) (hna : a.args = none)
    (hng : (truthyStr a.type && truthyStr a.botToken && truthyStr a.chatId) = false)
    (hjid : truthyStr jc.id = true)
    (hja : jc.notificationAdapter = some [a]) :
    convertNotificationAdapter (some a) = some { id := a.id, fields := some [] } ∧
    syncJobToDatabase jc cfg = some
      { id := jc.id.getD ""
        name := if truthyStr jc.name then jc.name.getD "" else jc.id.getD ""
        enabled := jc.enabled != some false
        provider := jc.provider.getD []
        notificationAdapter := [{ id := a.id, fields := some [] }]
        userId := CONFIG_SYNC_USER_ID
        shareWithUsers := jc.user_ids.getD []
        blacklist := jc.blacklist.getD [] } := by
  have hconv : convertNotificationAdapter (some a) = some { id := a.id, fields := some [] } := by
    simp [convertNotificationAdapter, hng, hid, hnf, hna]
  refine ⟨hconv, ?_⟩
  simp [syncJobToDatabase, jobAdapters, jobOwnAdapters, hjid, hja, hconv]

/-- Witness for `convert_adapter_id_only_prevents_fallback` with a concrete
id-only adapter and a config that does configure global adapters. -/
theorem convert_adapter_id_only_prevents_fallback_witness :
    truthyStr (Adapter.mk none none none (some "x") none none).id = true ∧
    convertNotificationAdapter (some (Adapter.mk none none none (some "x") none none))
      = some { id := some "x", fields := some [] } ∧
    syncJobToDatabase
        { id := some "j", notificationAdapter := some [Adapter.mk none none none (some "x") none none] }
        { adapters := some [tgGlobalShape] }
      = some
      { id := "j"
        name := "j"
        enabled := true
        provider := []
        notificationAdapter := [{ id := some "x", fields := some [] }]
        userId := CONFIG_SYNC_USER_ID
        shareWithUsers := []
        blacklist := [] } := by
  have h := convert_adapter_id_only_prevents_fallback
    (Adapter.mk none none none (some "x") none none)
    { id := some "j", notificationAdapter := some [Adapter.mk none none none (some "x") none none] }
    { adapters := some [tgGlobalShape] }
    (by decide) rfl rfl (by decide) (by decide) rfl
  exact ⟨by decide, h.1, h.2⟩

/-! ## Placeholder-substitution theorems (C9) -/

/-- Environment with `BOT_TOKEN=T` set. -/
def envT : EnvVars := ⟨some "T", none⟩

/-- Environment with both `BOT_TOKEN=T` and `RAW_FEED_CHANNEL_ID=C` set. -/
def envBoth : EnvVars := ⟨some "T", some "C"⟩

/-- A configuration with a resolvable placeholder as a string element
directly inside an array value. -/
def cfgArrayPlaceholder : JValue :=
  .obj [("adapters", .arr [.str "${BOT_TOKEN}"])]

/-- C9 counterexample: with `BOT_TOKEN=T` set, the placeholder string *is*
resolvable (first conjunct), yet `replaceEnvPlaceholdersSimple` leaves the
configuration unchanged when that string sits directly inside an array
(second conjunct): the `forEach` of lines 37-41 only recurses into object
items and never substitutes string items.  Third conjunct: with both
environment variables set, a string carrying both placeholders keeps
`${BOT_TOKEN}` unresolved, because both `replaceAll` calls work on the
original captured value and the second `obj[key]` assignment overwrites the
first. -/
theorem replace_env_array_string_counterexample :
    substEnvPlaceholders envT "${BOT_TOKEN}" = "T" ∧
    replSimple envT cfgArrayPlaceholder = cfgArrayPlaceholder ∧
    substEnvPlaceholders envBoth "${BOT_TOKEN}/${RAW_FEED_CHANNEL_ID}"
      = "${BOT_TOKEN}/C" := by
  exact ⟨by decide, rfl, by decide⟩

/-- C9 amended: every string-valued object property is rewritten (recursively
through nested objects) by the per-string substitution of lines 26-33 — which,
when the `${RAW_FEED_CHANNEL_ID}` branch fires, replaces only that placeholder
in the *original* string, overwriting any `${BOT_TOKEN}` substitution (third
conjunct) — while a string element sitting directly inside an array value is
returned unchanged (positionally, second conjunct). -/
theorem replace_env_placeholders_amended :
    (∀ (env : EnvVars) (es : List (String × JValue)) (i : Nat) (k : String) (s : String),
      es[i]? = some (k, JValue.str s) →
      (replSimpleEntries env es)[i]? = some (k, JValue.str (substEnvPlaceholders env s))) ∧
    (∀ (env : EnvVars) (items : List JValue) (i : Nat) (s : String),
      items[i]? = some (JValue.str s) →
      (replSimpleItems env items)[i]? = some (JValue.str s)) ∧
    (∀ (env : EnvVars) (s t : String),
      env.rawFeedChannelId = some t →
      (t != "" && strIncludes s "${RAW_FEED_CHANNEL_ID}") = true →
      substEnvPlaceholders env s = replaceAllStr s "${RAW_FEED_CHANNEL_ID}" t) := by
  refine ⟨?_, ?_, ?_⟩
  · intro env es
    induction es with
    | nil => intro i k s h; simp at h
    | cons e rest ih =>
      intro i k s h
      cases i with
      | zero =>
        obtain ⟨ek, ev⟩ := e
        simp at h
        obtain ⟨h1, h2⟩ := h
        subst h1
        subst h2
        simp [replSimpleEntries, replSimpleValue]
      | succ i' =>
        obtain ⟨ek, ev⟩ := e
        simp at h
        simpa [replSimpleEntries] using ih i' k s h
  · intro env items
    induction items with
    | nil => intro i s h; simp at h
    | cons item rest ih =>
      intro i s h
      cases i with
      | zero =>
        simp at h
        subst h
        simp [replSimpleItems, replSimpleItem]
      | succ i' =>
        simp at h
        simpa [replSimpleItems] using ih i' s h
  · intro env s t h1 h2
    simp [substEnvPlaceholders, h1, h2]

/-- Witness for `replace_env_placeholders_amended` on concrete lists and a
concrete both-placeholder string. -/
theorem replace_env_placeholders_amended_witness :
    ([("token", JValue.str "${BOT_TOKEN}")][0]?
        = some ("token", JValue.str "${BOT_TOKEN}")) ∧
    ((replSimpleEntries envT [("token", JValue.str "${BOT_TOKEN}")])[0]?
        = some ("token", JValue.str (substEnvPlaceholders envT "${BOT_TOKEN}"))) ∧
    ([JValue.str "${BOT_TOKEN}"][0]? = some (JValue.str "${BOT_TOKEN}")) ∧
    ((replSimpleItems envT [JValue.str "${BOT_TOKEN}"])[0]?
        = some (JValue.str "${BOT_TOKEN}")) ∧
    (envBoth.rawFeedChannelId = some "C") ∧
    ((("C" : String) != "" &&
        strIncludes "${BOT_TOKEN}/${RAW_FEED_CHANNEL_ID}" "${RAW_FEED_CHANNEL_ID}") = true) ∧
    (substEnvPlaceholders envBoth "${BOT_TOKEN}/${RAW_FEED_CHANNEL_ID}"
        = replaceAllStr "${BOT_TOKEN}/${RAW_FEED_CHANNEL_ID}" "${RAW_FEED_CHANNEL_ID}" "C") :=
  ⟨rfl,
   replace_env_placeholders_amended.1 envT [("token", JValue.str "${BOT_TOKEN}")] 0
     "token" "${BOT_TOKEN}" rfl,
   rfl,
   replace_env_placeholders_amended.2.1 envT [JValue.str "${BOT_TOKEN}"] 0
     "${BOT_TOKEN}" rfl,
   rfl,
   by decide,
   replace_env_placeholders_amended.2.2 envBoth "${BOT_TOKEN}/${RAW_FEED_CHANNEL_ID}" "C"
     rfl (by decide)⟩

/-! ## Bounded-concurrency runner theorems (C2) -/

/-- Inductive invariant of the runner: the in-flight set is bounded by the
limit, no task is lost or duplicated (as a multiset), and once draining no
task is pending. -/
lemma runner_reach_invariant {L : Nat} {tasks : List Bool} {s : RunnerState}
    (h : RunnerReach L (initRunner tasks) s) :
    s.running.length ≤ L ∧
    ((s.pending : Multiset Bool) + (s.running : Multiset Bool) + (s.settled : Multiset Bool)
      = (tasks : Multiset Bool)) ∧
    (s.draining = true → s.pending = []) := by
  induction h with
  | refl => simp [initRunner]
  | step hr hs ih =>
    obtain ⟨ih1, ih2, ih3⟩ := ih
    cases hs with
    | submit b rest running settled hcap =>
      refine ⟨hcap, ?_, by simp⟩
      rw [← ih2]
      simp only [← Multiset.cons_coe, ← Multiset.singleton_add, ← Multiset.coe_add]
      abel
    | settle b pending l₁ l₂ settled d =>
      refine ⟨?_, ?_, ?_⟩
      · simp only [List.length_append, List.length_cons] at ih1 ⊢
        omega
      · rw [← ih2]
        simp only [← Multiset.cons_coe, ← Multiset.singleton_add, ← Multiset.coe_add]
        abel
      · exact ih3
    | finishSubmitting running settled =>
      exact ⟨ih1, ih2, fun _ => rfl⟩

/-- Progress: a runner state that has not returned always has a next step
(submission, settling, or ending the submission loop); in particular no
amount of task failures can deadlock or abort the runner. -/
lemma runner_progress {L : Nat} (hL : 1 ≤ L) (s : RunnerState)
    (hnd : s.isDone = false) : ∃ s', RunnerStep L s s' := by
  obtain ⟨pending, running, settled, draining⟩ := s
  cases draining with
  | true =>
    simp [RunnerState.isDone] at hnd
    cases running with
    | nil => simp at hnd
    | cons b rest =>
      exact ⟨_, RunnerStep.settle b pending [] rest settled true⟩
  | false =>
    cases pending with
    | nil => exact ⟨_, RunnerStep.finishSubmitting running settled⟩
    | cons b rest =>
      by_cases hcap : running.length < L
      · exact ⟨_, RunnerStep.submit b rest running settled hcap⟩
      · cases running with
        | nil => simp at hcap; omega
        | cons r rrest =>
          exact ⟨_, RunnerStep.settle r (b :: rest) [] rrest settled false⟩

/-- Every step strictly decreases the runner measure, so every maximal trace
is finite and (with progress) ends in the done state. -/
lemma runner_step_measure {L : Nat} {s s' : RunnerState} (h : RunnerStep L s s') :
    runnerMeasure s' < runnerMeasure s := by
  cases h with
  | submit b rest running settled hcap => simp [runnerMeasure]; omega
  | settle b pending l₁ l₂ settled d =>
    cases d <;> simp [runnerMeasure] <;> omega
  | finishSubmitting running settled => simp [runnerMeasure]

/-- C2: for every task list and every limit `L ≥ 1`, along every cooperative
interleaving of `runWithConcurrency`: (i) at most `L` tasks are unsettled at
any time; (ii) when the runner has returned, every task — fulfilled or
rejected — has settled (the settled multiset is exactly the input); (iii) a
state that has not returned can always take a step (the runner itself never
rejects or deadlocks, regardless of how many tasks fail); and (iv) every
step decreases a finite measure, so the runner does return. -/
theorem runWithConcurrency_bounded_and_complete (L : Nat) (tasks : List Bool)
    (s : RunnerState) (hL : 1 ≤ L) (h : RunnerReach L (initRunner tasks) s) :
    s.running.length ≤ L ∧
    (s.isDone = true → (s.settled : Multiset Bool) = (tasks : Multiset Bool)) ∧
    (s.isDone = false → ∃ s', RunnerStep L s s') ∧
    (∀ s', RunnerStep L s s' → runnerMeasure s' < runnerMeasure s) := by
  obtain ⟨h1, h2, h3⟩ := runner_reach_invariant h
  refine ⟨h1, ?_, fun hnd => runner_progress hL s hnd, fun s' hs => runner_step_measure hs⟩
  intro hdone
  simp [RunnerState.isDone] at hdone
  obtain ⟨hdr, hrun⟩ := hdone
  have hp : s.pending = [] := h3 hdr
  rw [← h2, hp, hrun]
  simp

/-- Witness for `runWithConcurrency_bounded_and_complete`: limit 1, two
tasks (one fulfilling, one rejecting), at the state reached after the first
submission. -/
theorem runWithConcurrency_bounded_and_complete_witness :
    1 ≤ 1 ∧
    ((⟨[false], [true], [], false⟩ : RunnerState).running.length ≤ 1 ∧
      ((⟨[false], [true], [], false⟩ : RunnerState).isDone = true →
        (((⟨[false], [true], [], false⟩ : RunnerState).settled : Multiset Bool)
          = (([true, false] : List Bool) : Multiset Bool))) ∧
      ((⟨[false], [true], [], false⟩ : RunnerState).isDone = false →
        ∃ s', RunnerStep 1 (⟨[false], [true], [], false⟩ : RunnerState) s') ∧
      (∀ s', RunnerStep 1 (⟨[false], [true], [], false⟩ : RunnerState) s' →
        runnerMeasure s' < runnerMeasure (⟨[false], [true], [], false⟩ : RunnerState))) :=
  ⟨Nat.le_refl 1,
   runWithConcurrency_bounded_and_complete 1 [true, false]
     ⟨[false], [true], [], false⟩ (Nat.le_refl 1)
     (RunnerReach.step RunnerReach.refl
       (RunnerStep.submit true [false] [] [] (by decide)))⟩

/-! ## Job-store lemmas

Algebra of the (spec-modelled) id-keyed store operations, used for the
reconciler claims. -/

/-- `hasId s i` : the store has a row keyed `i`. -/
def hasId (s : List DbJob) (i : String) : Bool :=
  s.any (fun x => x.id == i)

lemma mem_upsert {x : DbJob} {s : List DbJob} {j : DbJob}
    (h : x ∈ upsertJob s j) : x = j ∨ x ∈ s := by
  induction s with
  | nil =>
    simp [upsertJob] at h
    exact Or.inl h
  | cons y ys ih =>
    by_cases hy : y.id = j.id
    · simp only [upsertJob, if_pos hy] at h
      rcases List.mem_cons.mp h with h | h
      · exact Or.inl h
      · exact Or.inr (List.mem_cons_of_mem y h)
    · simp only [upsertJob, if_neg hy] at h
      rcases List.mem_cons.mp h with h | h
      · exact Or.inr (h ▸ List.mem_cons_self y ys)
      · rcases ih h with h | h
        · exact Or.inl h
        · exact Or.inr (List.mem_cons_of_mem y h)

lemma mem_upsert_of_ne {x : DbJob} {s : List DbJob} {j : DbJob}
    (hx : x ∈ s) (hne : x.id ≠ j.id) : x ∈ upsertJob s j := by
  induction s with
  | nil => simp at hx
  | cons y ys ih =>
    by_cases hy : y.id = j.id
    · simp only [upsertJob, if_pos hy]
      rcases List.mem_cons.mp hx with h | h
      · exact absurd (h ▸ hy) hne
      · exact List.mem_cons_of_mem j h
    · simp only [upsertJob, if_neg hy]
      rcases List.mem_cons.mp hx with h | h
      · exact h ▸ List.mem_cons_self y _
      · exact List.mem_cons_of_mem y (ih h)

lemma upsert_find_self (s : List DbJob) (j : DbJob) :
    (upsertJob s j).find? (fun x => x.id == j.id) = some j := by
  induction s with
  | nil => simp [upsertJob, List.find?]
  | cons y ys ih =>
    by_cases hy : y.id = j.id
    · simp [upsertJob, if_pos hy, List.find?]
    · simp only [upsertJob, if_neg hy]
      rw [List.find?_cons_of_neg, ih]
      simp [hy]

lemma upsert_find_ne (s : List DbJob) (j : DbJob) {i : String} (hne : i ≠ j.id) :
    (upsertJob s j).find? (fun x => x.id == i) = s.find? (fun x => x.id == i) := by
  have hji : ¬ ((j.id == i) = true) := by
    simp only [beq_iff_eq]
    exact fun h => hne h.symm
  induction s with
  | nil =>
    simp only [upsertJob]
    rw [List.find?_cons_of_neg (p := fun x : DbJob => x.id == i) _ hji]
  | cons y ys ih =>
    by_cases hy : y.id = j.id
    · simp only [upsertJob, if_pos hy]
      have hyi : ¬ ((y.id == i) = true) := by
        simp only [beq_iff_eq, hy]
        exact fun h => hne h.symm
      rw [List.find?_cons_of_neg (p := fun x : DbJob => x.id == i) _ hji, List.find?_cons_of_neg (p := fun x : DbJob => x.id == i) _ hyi]
    · simp only [upsertJob, if_neg hy]
      by_cases hyi : y.id = i
      · rw [List.find?_cons_of_pos (p := fun x : DbJob => x.id == i) _ (by simp [hyi]), List.find?_cons_of_pos (p := fun x : DbJob => x.id == i) _ (by simp [hyi])]
      · rw [List.find?_cons_of_neg (p := fun x : DbJob => x.id == i) _ (by simp [hyi]), List.find?_cons_of_neg (p := fun x : DbJob => x.id == i) _ (by simp [hyi]), ih]

lemma upsert_absorb {s : List DbJob} {j : DbJob}
    (h : s.find? (fun x => x.id == j.id) = some j) : upsertJob s j = s := by
  induction s with
  | nil => simp at h
  | cons y ys ih =>
    by_cases hy : y.id = j.id
    · rw [List.find?_cons_of_pos (p := fun x : DbJob => x.id == j.id) _ (by simp [hy])] at h
      have hyj : y = j := by simpa using h
      simp [upsertJob, if_pos hy, hyj]
    · rw [List.find?_cons_of_neg (p := fun x : DbJob => x.id == j.id) _ (by simp [hy])] at h
      simp [upsertJob, if_neg hy, ih h]

lemma upsert_upsert_same {t : List DbJob} {j k : DbJob} (h : j.id = k.id) :
    upsertJob (upsertJob t j) k = upsertJob t k := by
  induction t with
  | nil => simp [upsertJob, if_pos h]
  | cons y ys ih =>
    by_cases hy : y.id = j.id
    · simp [upsertJob, if_pos hy, if_pos (h ▸ hy), if_pos h]
    · simp only [upsertJob, if_neg hy, if_neg (h ▸ hy), ih]

lemma hasId_upsert_self (s : List DbJob) (j : DbJob) :
    hasId (upsertJob s j) j.id = true := by
  induction s with
  | nil => simp [upsertJob, hasId]
  | cons y ys ih =>
    by_cases hy : y.id = j.id
    · simp [upsertJob, if_pos hy, hasId]
    · simp only [upsertJob, if_neg hy, hasId, List.any_cons, Bool.or_eq_true]
      simp only [hasId] at ih
      simp [ih]

lemma hasId_upsert_mono {s : List DbJob} {i : String} (j : DbJob)
    (h : hasId s i = true) : hasId (upsertJob s j) i = true := by
  induction s with
  | nil => simp [hasId] at h
  | cons y ys ih =>
    simp only [hasId, List.any_cons, Bool.or_eq_true, beq_iff_eq] at h
    by_cases hy : y.id = j.id
    · simp only [upsertJob, if_pos hy, hasId, List.any_cons, Bool.or_eq_true, beq_iff_eq]
      rcases h with h | h
      · exact Or.inl (hy ▸ h)
      · simp only [hasId] at ih ⊢
        exact Or.inr (by simpa using h)
    · simp only [upsertJob, if_neg hy, hasId, List.any_cons, Bool.or_eq_true, beq_iff_eq]
      rcases h with h | h
      · exact Or.inl h
      · simp only [hasId] at ih
        have := ih (by simpa [hasId] using h)
        exact Or.inr (by simpa using this)

lemma upsert_comm {t : List DbJob} {j k : DbJob} (hjk : j.id ≠ k.id)
    (hj : hasId t j.id = true) :
    upsertJob (upsertJob t j) k = upsertJob (upsertJob t k) j := by
  induction t with
  | nil => simp [hasId] at hj
  | cons y ys ih =>
    by_cases hyj : y.id = j.id
    · have hyk : ¬ y.id = k.id := by rw [hyj]; exact hjk
      simp only [upsertJob, if_pos hyj, if_neg hjk, if_neg hyk, if_pos hyj]
    · by_cases hyk : y.id = k.id
      · have hkj : ¬ k.id = j.id := fun h => hjk h.symm
        simp only [upsertJob, if_neg hyj, if_pos hyk, if_neg hkj]
      · have hj' : hasId ys j.id = true := by
          simp only [hasId, List.any_cons, Bool.or_eq_true, beq_iff_eq] at hj
          rcases hj with h | h
          · exact absurd h hyj
          · simpa [hasId] using h
        simp only [upsertJob, if_neg hyj, if_neg hyk, ih hj']

/-! ## Fold-level store lemmas -/

lemma hasId_foldl_upsert {U : List DbJob} {s : List DbJob} {i : String}
    (h : hasId s i = true) : hasId (U.foldl upsertJob s) i = true := by
  induction U generalizing s with
  | nil => exact h
  | cons k U' ih => exact ih (hasId_upsert_mono k h)

lemma mem_foldl_upsert {x : DbJob} {U : List DbJob} {s : List DbJob}
    (h : x ∈ U.foldl upsertJob s) : x ∈ s ∨ x ∈ U := by
  induction U generalizing s with
  | nil => exact Or.inl h
  | cons k U' ih =>
    rcases ih h with h | h
    · rcases mem_upsert h with h | h
      · exact Or.inr (h ▸ List.mem_cons_self k U')
      · exact Or.inl h
    · exact Or.inr (List.mem_cons_of_mem k h)

lemma mem_foldl_upsert_of_ne {x : DbJob} {U : List DbJob} {s : List DbJob}
    (hx : x ∈ s) (h : ∀ k ∈ U, k.id ≠ x.id) : x ∈ U.foldl upsertJob s := by
  induction U generalizing s with
  | nil => exact hx
  | cons k U' ih =>
    refine ih (mem_upsert_of_ne hx ?_) (fun k' hk' => h k' (List.mem_cons_of_mem k hk'))
    exact fun hexk => (h k (List.mem_cons_self k U')) hexk.symm

lemma foldl_upsert_find_ne {U : List DbJob} {i : String}
    (h : ∀ k ∈ U, k.id ≠ i) (s : List DbJob) :
    (U.foldl upsertJob s).find? (fun x => x.id == i) = s.find? (fun x => x.id == i) := by
  induction U generalizing s with
  | nil => rfl
  | cons k U' ih =>
    rw [List.foldl_cons, ih (fun k' hk' => h k' (List.mem_cons_of_mem k hk')),
      upsert_find_ne s k (fun hik => (h k (List.mem_cons_self k U')) hik.symm)]

/-- Override: upserting `j` first is irrelevant when a later upsert writes
the same id again (given the id is already present). -/
lemma foldl_upsert_override {U : List DbJob} {j : DbJob} {T : List DbJob}
    (hT : hasId T j.id = true) (hmem : ∃ k ∈ U, k.id = j.id) :
    U.foldl upsertJob (upsertJob T j) = U.foldl upsertJob T := by
  induction U generalizing T with
  | nil => simp at hmem
  | cons k U' ih =>
    simp only [List.foldl_cons]
    by_cases hk : k.id = j.id
    · rw [upsert_upsert_same hk.symm]
    · rw [upsert_comm (fun h => hk h.symm) hT]
      refine ih (hasId_upsert_mono k hT) ?_
      rcases hmem with ⟨m, hm, hmid⟩
      rcases List.mem_cons.mp hm with hmk | hm'
      · exact absurd (hmk ▸ hmid) hk
      · exact ⟨m, hm', hmid⟩

/-- Replaying the same sequence of upserts is a no-op. -/
lemma foldl_upsert_idem (U : List DbJob) (s : List DbJob) :
    U.foldl upsertJob (U.foldl upsertJob s) = U.foldl upsertJob s := by
  induction U generalizing s with
  | nil => rfl
  | cons j U' ih =>
    simp only [List.foldl_cons]
    by_cases hmem : ∃ k ∈ U', k.id = j.id
    · rw [foldl_upsert_override (hasId_foldl_upsert (hasId_upsert_self s j)) hmem]
      exact ih (upsertJob s j)
    · push_neg at hmem
      have hfind : (U'.foldl upsertJob (upsertJob s j)).find? (fun x => x.id == j.id)
          = some j := by
        rw [foldl_upsert_find_ne hmem, upsert_find_self]
      rw [upsert_absorb hfind]
      exact ih (upsertJob s j)

lemma mem_removeJob {x : DbJob} {s : List DbJob} {i : String} :
    x ∈ removeJob s i ↔ x ∈ s ∧ x.id ≠ i := by
  simp [removeJob, List.mem_filter]

lemma mem_foldl_remove {x : DbJob} {R : List String} {s : List DbJob} :
    x ∈ R.foldl removeJob s ↔ x ∈ s ∧ ∀ r ∈ R, x.id ≠ r := by
  induction R generalizing s with
  | nil => simp
  | cons r R' ih =>
    rw [List.foldl_cons, ih, mem_removeJob]
    constructor
    · rintro ⟨⟨hx, hr⟩, hall⟩
      refine ⟨hx, fun r' hr' => ?_⟩
      rcases List.mem_cons.mp hr' with h | h
      · exact h ▸ hr
      · exact hall r' h
    · rintro ⟨hx, hall⟩
      exact ⟨⟨hx, hall r (List.mem_cons_self r R')⟩,
        fun r' hr' => hall r' (List.mem_cons_of_mem r hr')⟩

lemma upsert_remove_comm {s : List DbJob} {j : DbJob} {r : String} (h : j.id ≠ r) :
    upsertJob (removeJob s r) j = removeJob (upsertJob s j) r := by
  induction s with
  | nil => simp [removeJob, upsertJob, h]
  | cons y ys ih =>
    by_cases hyr : y.id = r
    · have hyj : ¬ y.id = j.id := by rw [hyr]; exact fun hh => h hh.symm
      rw [show removeJob (y :: ys) r = removeJob ys r from by simp [removeJob, hyr]]
      rw [ih]
      rw [show upsertJob (y :: ys) j = y :: upsertJob ys j from by simp [upsertJob, hyj]]
      rw [show removeJob (y :: upsertJob ys j) r = removeJob (upsertJob ys j) r from by
        simp [removeJob, hyr]]
    · by_cases hyj : y.id = j.id
      · rw [show removeJob (y :: ys) r = y :: removeJob ys r from by simp [removeJob, hyr]]
        rw [show upsertJob (y :: removeJob ys r) j = j :: removeJob ys r from by
          simp [upsertJob, hyj]]
        rw [show upsertJob (y :: ys) j = j :: ys from by simp [upsertJob, hyj]]
        rw [show removeJob (j :: ys) r = j :: removeJob ys r from by simp [removeJob, h]]
      · rw [show removeJob (y :: ys) r = y :: removeJob ys r from by simp [removeJob, hyr]]
        rw [show upsertJob (y :: removeJob ys r) j = y :: upsertJob (removeJob ys r) j from by
          simp [upsertJob, hyj]]
        rw [ih]
        rw [show upsertJob (y :: ys) j = y :: upsertJob ys j from by simp [upsertJob, hyj]]
        rw [show removeJob (y :: upsertJob ys j) r = y :: removeJob (upsertJob ys j) r from by
          simp [removeJob, hyr]]

lemma foldl_upsert_removeJob_comm {U : List DbJob} {r : String}
    (h : ∀ k ∈ U, k.id ≠ r) (s : List DbJob) :
    U.foldl upsertJob (removeJob s r) = removeJob (U.foldl upsertJob s) r := by
  induction U generalizing s with
  | nil => rfl
  | cons k U' ih =>
    rw [List.foldl_cons, List.foldl_cons,
      upsert_remove_comm (h k (List.mem_cons_self k U')),
      ih (fun k' hk' => h k' (List.mem_cons_of_mem k hk'))]

lemma foldl_upsert_foldl_remove_comm {U : List DbJob} {R : List String}
    (h : ∀ k ∈ U, ∀ r ∈ R, k.id ≠ r) (s : List DbJob) :
    U.foldl upsertJob (R.foldl removeJob s) = R.foldl removeJob (U.foldl upsertJob s) := by
  induction R generalizing s with
  | nil => rfl
  | cons r R' ih =>
    rw [List.foldl_cons, List.foldl_cons,
      ih (fun k hk r' hr' => h k hk r' (List.mem_cons_of_mem r hr')),
      foldl_upsert_removeJob_comm (fun k hk => h k hk r (List.mem_cons_self r R'))]

/-! ## Sync-engine lemmas -/

/-- A row written by `syncJobToDatabase` carries the config job's id and is
owned by the synthetic config-sync user. -/
lemma syncJob_some_info {jc : ConfigJob} {cfg : Config} {u : DbJob}
    (h : syncJobToDatabase jc cfg = some u) :
    jc.id = some u.id ∧ u.userId = CONFIG_SYNC_USER_ID := by
  unfold syncJobToDatabase at h
  cases ht : truthyStr jc.id with
  | false => rw [ht] at h; simp at h
  | true =>
    rw [ht] at h
    simp only [Bool.not_true, Bool.false_eq_true, if_false] at h
    by_cases hA : (jobAdapters jc cfg).isEmpty
    · rw [if_pos hA] at h
      simp at h
    · rw [if_neg hA] at h
      have hu := Option.some.inj h
      cases hid : jc.id with
      | none => simp [truthyStr, hid] at ht
      | some s =>
        constructor
        · rw [← hu, hid]
          rfl
        · rw [← hu]

lemma foldl_sync_eq (cfg : Config) (l : List ConfigJob) (st : List DbJob) :
    l.foldl
      (fun st jc =>
        match syncJobToDatabase jc cfg with
        | some j => upsertJob st j
        | none => st) st
    = (l.filterMap (fun jc => syncJobToDatabase jc cfg)).foldl upsertJob st := by
  induction l generalizing st with
  | nil => rfl
  | cons jc rest ih =>
    rw [List.foldl_cons, List.filterMap_cons]
    cases h : syncJobToDatabase jc cfg with
    | none => simp only [h]; exact ih st
    | some j => simp only [h, List.foldl_cons]; exact ih (upsertJob st j)

lemma foldl_remove_eq (l : List DbJob) (st : List DbJob) :
    l.foldl (fun st j => removeJob st j.id) st
      = (l.map (fun j => j.id)).foldl removeJob st := by
  induction l generalizing st with
  | nil => rfl
  | cons j rest ih => simp only [List.foldl_cons, List.map_cons]; exact ih (removeJob st j.id)

/-- The `configJobIds` set of configJobSync.js line 200. -/
def configJobIdsOf (cfg : Config) : List (Option String) :=
  (cfg.jobs.getD []).map (fun jc => jc.id)

/-- The sequence of rows actually upserted by the per-job loop of lines
206-212 (the skipped jobs contribute nothing). -/
def upsertRowsOf (cfg : Config) : List DbJob :=
  (cfg.jobs.getD []).filterMap (fun jc => syncJobToDatabase jc cfg)

/-- The `jobsToRemove` list of line 215: store jobs owned by the synthetic
user whose id is absent from the declarative id set. -/
def jobsToRemoveOf (store : List DbJob) (cfg : Config) : List DbJob :=
  (store.filter (fun j => j.userId = CONFIG_SYNC_USER_ID)).filter
    (fun j => !(configJobIdsOf cfg).contains (some j.id))

/-- Unfolding of `syncConfigJobsToDatabase` when the declarative job list is
non-empty. -/
lemma sync_nonempty_eq {cfg : Config} (h : (cfg.jobs.getD []).isEmpty = false)
    (store : List DbJob) :
    syncConfigJobsToDatabase store cfg =
      (((jobsToRemoveOf store cfg).map (fun j => j.id)).foldl removeJob
          ((upsertRowsOf cfg).foldl upsertJob store),
        (jobsToRemoveOf store cfg).map (fun j => j.id)) := by
  unfold syncConfigJobsToDatabase jobsToRemoveOf configJobIdsOf upsertRowsOf
  rw [if_neg (by simp [h])]
  simp only [foldl_sync_eq, foldl_remove_eq]

/-- Unfolding of `syncConfigJobsToDatabase` when the declarative job list is
empty: the early return of configJobSync.js lines 191-195. -/
lemma sync_empty_eq {cfg : Config} (h : (cfg.jobs.getD []).isEmpty = true)
    (store : List DbJob) :
    syncConfigJobsToDatabase store cfg = (store, []) := by
  unfold syncConfigJobsToDatabase
  rw [if_pos (by simp [h])]

lemma contains_optstr {l : List (Option String)} {a : Option String} :
    l.contains a = true ↔ a ∈ l := by
  simp [List.contains]

/-- Every row upserted by the sync has its id in the declarative id set. -/
lemma mem_upsertRows_contains {cfg : Config} {u : DbJob}
    (hu : u ∈ upsertRowsOf cfg) :
    (configJobIdsOf cfg).contains (some u.id) = true := by
  rcases List.mem_filterMap.mp hu with ⟨jc, hjc, hsync⟩
  have hinfo := syncJob_some_info hsync
  refine contains_optstr.mpr ?_
  exact hinfo.1 ▸ List.mem_map_of_mem (fun jc => jc.id) hjc

/-- Every row upserted by the sync is owned by the synthetic user. -/
lemma mem_upsertRows_owner {cfg : Config} {u : DbJob}
    (hu : u ∈ upsertRowsOf cfg) : u.userId = CONFIG_SYNC_USER_ID := by
  rcases List.mem_filterMap.mp hu with ⟨jc, hjc, hsync⟩
  exact (syncJob_some_info hsync).2

/-- Membership in `jobsToRemoveOf`, unfolded. -/
lemma mem_jobsToRemove {store : List DbJob} {cfg : Config} {y : DbJob} :
    y ∈ jobsToRemoveOf store cfg ↔
      y ∈ store ∧ y.userId = CONFIG_SYNC_USER_ID ∧
        (configJobIdsOf cfg).contains (some y.id) = false := by
  unfold jobsToRemoveOf
  simp only [List.mem_filter, decide_eq_true_eq, Bool.not_eq_true', and_assoc]

/-- C5: the reconciler only ever removes store jobs owned by the synthetic
config-sync user: a job with any other owner survives the sync untouched
(when its id is absent from the declarative source and ids are unique keys),
and no removed id ever belongs to it. -/
theorem sync_never_removes_foreign_jobs (store : List DbJob) (cfg : Config) (j : DbJob)
    (hj : j ∈ store) (hforeign : j.userId ≠ CONFIG_SYNC_USER_ID)
    (hkeyed : ∀ x ∈ store, ∀ y ∈ store, x.id = y.id → x = y)
    (habsent : ((cfg.jobs.getD []).map (fun jc => jc.id)).contains (some j.id) = false) :
    j ∈ (syncConfigJobsToDatabase store cfg).1 ∧
    ∀ i ∈ (syncConfigJobsToDatabase store cfg).2, i ≠ j.id := by
  have habsent' : (configJobIdsOf cfg).contains (some j.id) = false := habsent
  have hremne : ∀ i ∈ (jobsToRemoveOf store cfg).map (fun y => y.id), i ≠ j.id := by
    intro i hi
    rcases List.mem_map.mp hi with ⟨y, hy, rfl⟩
    rcases mem_jobsToRemove.mp hy with ⟨hy1, hy2, _⟩
    intro hyj
    exact hforeign ((hkeyed j hj y hy1 hyj.symm) ▸ hy2)
  cases hemp : (cfg.jobs.getD []).isEmpty with
  | true =>
    rw [sync_empty_eq hemp]
    exact ⟨hj, by simp⟩
  | false =>
    rw [sync_nonempty_eq hemp]
    refine ⟨?_, hremne⟩
    apply mem_foldl_remove.mpr
    refine ⟨?_, fun r hr h => hremne r hr h.symm⟩
    apply mem_foldl_upsert_of_ne hj
    intro k hk hkj
    have hc := mem_upsertRows_contains hk
    rw [hkj] at hc
    rw [habsent'] at hc
    exact Bool.noConfusion hc

/-- Concrete application of `sync_never_removes_foreign_jobs`. -/
def jobForeign : DbJob := ⟨"f", "f", true, [⟨"p1"⟩], [tgAdapterDb], "ui_user", [], []⟩

/-- A declarative source with one job "b" (so the job list is non-empty and
does not mention "f" or "a"). -/
def cfgOneJob : Config :=
  { jobs := some [{ id := some "b", notificationAdapter := some [tgAdapterDb] }] }

/-- Witness for `sync_never_removes_foreign_jobs`. -/
theorem sync_never_removes_foreign_jobs_witness :
    (jobForeign ∈ [jobForeign]) ∧
    (jobForeign.userId ≠ CONFIG_SYNC_USER_ID) ∧
    (∀ x ∈ [jobForeign], ∀ y ∈ [jobForeign], x.id = y.id → x = y) ∧
    (((cfgOneJob.jobs.getD []).map (fun jc => jc.id)).contains (some jobForeign.id) = false) ∧
    (jobForeign ∈ (syncConfigJobsToDatabase [jobForeign] cfgOneJob).1 ∧
      ∀ i ∈ (syncConfigJobsToDatabase [jobForeign] cfgOneJob).2, i ≠ jobForeign.id) :=
  ⟨by decide, by decide, by decide, by decide,
    sync_never_removes_foreign_jobs [jobForeign] cfgOneJob jobForeign
      (by decide) (by decide) (by decide) (by decide)⟩

/-- C1 counterexample: store contains exactly the synthetic-owner job "a";
"a" is removed from the declarative source, leaving its job list empty.
Re-running the sync hits the early return of configJobSync.js lines 191-195
and leaves the store unchanged: one synthetic-owner job remains, not zero,
and nothing is removed. -/
theorem sync_empty_source_keeps_job_counterexample :
    syncConfigJobsToDatabase [jobA] cfgNoJobs = ([jobA], []) ∧
    ((syncConfigJobsToDatabase [jobA] cfgNoJobs).1.filter
        (fun j => j.userId == CONFIG_SYNC_USER_ID)).length = 1 := by
  exact ⟨by decide, by decide⟩

/-- C1 amended: on every sync whose declarative job list is *non-empty*,
after the per-job upserts every synthetic-owner store job whose id is absent
from the declarative id set is deleted (no row with its id survives); when
the list is empty the sync returns early and deletes nothing. -/
theorem sync_removes_absent_owned_jobs (store : List DbJob) (cfg : Config) (j : DbJob)
    (hne : (cfg.jobs.getD []).isEmpty = false)
    (hj : j ∈ store) (howned : j.userId = CONFIG_SYNC_USER_ID)
    (habsent : ((cfg.jobs.getD []).map (fun jc => jc.id)).contains (some j.id) = false) :
    ∀ x ∈ (syncConfigJobsToDatabase store cfg).1, x.id ≠ j.id := by
  rw [sync_nonempty_eq hne]
  intro x hx
  have hmem := mem_foldl_remove.mp hx
  apply hmem.2
  exact List.mem_map_of_mem (fun y => y.id)
    (mem_jobsToRemove.mpr ⟨hj, howned, habsent⟩)

/-- Witness for `sync_removes_absent_owned_jobs`: job "a" is synthetic-owned
and absent from `cfgOneJob`, so no row with id "a" survives the sync. -/
theorem sync_removes_absent_owned_jobs_witness :
    ((cfgOneJob.jobs.getD []).isEmpty = false) ∧
    (jobA ∈ [jobA]) ∧
    (jobA.userId = CONFIG_SYNC_USER_ID) ∧
    (((cfgOneJob.jobs.getD []).map (fun jc => jc.id)).contains (some jobA.id) = false) ∧
    (∀ x ∈ (syncConfigJobsToDatabase [jobA] cfgOneJob).1, x.id ≠ jobA.id) :=
  ⟨by decide, by decide, by decide, by decide,
    sync_removes_absent_owned_jobs [jobA] cfgOneJob jobA
      (by decide) (by decide) (by decide) (by decide)⟩

/-- C6: the sync is idempotent: running `syncConfigJobsToDatabase` a second
time against the store produced by the first run (with the declarative
source unchanged) removes nothing and re-writes every row to its existing
value, leaving the store exactly as the first run left it. -/
theorem sync_idempotent (store : List DbJob) (cfg : Config) :
    syncConfigJobsToDatabase ((syncConfigJobsToDatabase store cfg).1) cfg
      = ((syncConfigJobsToDatabase store cfg).1, []) := by
  cases hemp : (cfg.jobs.getD []).isEmpty with
  | true =>
    rw [sync_empty_eq hemp store]
    exact sync_empty_eq hemp store
  | false =>
    have h1 := sync_nonempty_eq hemp store
    set T := (upsertRowsOf cfg).foldl upsertJob store with hT
    set R1 := (jobsToRemoveOf store cfg).map (fun j => j.id) with hR1
    have hs1 : (syncConfigJobsToDatabase store cfg).1 = R1.foldl removeJob T := by
      rw [h1]
    rw [hs1, sync_nonempty_eq hemp (R1.foldl removeJob T)]
    have hrem2 : jobsToRemoveOf (R1.foldl removeJob T) cfg = [] := by
      apply List.eq_nil_iff_forall_not_mem.mpr
      intro y hy
      rcases mem_jobsToRemove.mp hy with ⟨hy1, hy2, hy3⟩
      have hm := mem_foldl_remove.mp hy1
      rcases mem_foldl_upsert hm.1 with hyst | hyU
      · exact hm.2 y.id
          (List.mem_map_of_mem (fun j => j.id) (mem_jobsToRemove.mpr ⟨hyst, hy2, hy3⟩)) rfl
      · have hc := mem_upsertRows_contains hyU
        rw [hy3] at hc
        exact Bool.noConfusion hc
    rw [hrem2]
    simp only [List.map_nil, List.foldl_nil]
    have hdisj : ∀ k ∈ upsertRowsOf cfg, ∀ r ∈ R1, k.id ≠ r := by
      intro k hk r hr
      rcases List.mem_map.mp hr with ⟨y, hy, rfl⟩
      rcases mem_jobsToRemove.mp hy with ⟨_, _, hy3⟩
      intro hkr
      have hc := mem_upsertRows_contains hk
      rw [hkr, hy3] at hc
      exact Bool.noConfusion hc
    rw [foldl_upsert_foldl_remove_comm hdisj, hT, foldl_upsert_idem]

end Fredy
